import Mathlib

/-!
Verification of the change-set reconciliation and chunked summarization core
of the AI release-notes generator.  The Python sources are shallowly embedded:
pure list/string manipulations become Lean functions, the external LLM call is
an injected function argument `f` (resp. `llm`), and Python sets are modelled
as lists of which only membership is consumed.
-/

namespace ReleaseNotes

universe u

variable {α : Type u}

/-- Python `str.strip()`: remove leading and trailing whitespace.  Modelled
over the character list so that it evaluates inside the kernel. -/
def pyStrip (s : String) : String :=
  ⟨((s.data.dropWhile Char.isWhitespace).reverse.dropWhile Char.isWhitespace).reverse⟩

/-- Python `str.lower()`; ASCII case folding, which covers the only use in
the sources (the literal `'merge'`). -/
def pyLower (s : String) : String :=
  ⟨s.data.map Char.toLower⟩

/-- Python `s.startswith(p)`. -/
def pyStartsWith (s p : String) : Bool :=
  p.data.isPrefixOf s.data

/-- Python `s.split("\n")[0]`: the prefix of `s` up to the first newline
(`split` never returns an empty list, so the indexing is total). -/
def firstLine (s : String) : String :=
  ⟨s.data.takeWhile (fun c => c ≠ '\n')⟩

/-- A merged change-request record as assembled by `get_merged_prs` in
`multiple_repos_release_notes.py` (a dict with keys `number`, `title`,
`body`, `author`, `commit_shas`; the merge timestamp is only used by the
out-of-scope fetch filter).  The subsumed-commit SHA set is modelled as a
list, of which only membership is ever consumed. -/
structure PullReq where
  number : Nat
  title : String
  body : String
  author : String
  commit_shas : List String

/-- A commit object as the core consumes it: `c.sha` and `c.commit.message`
in the Python sources. -/
structure CommitObj where
  sha : String
  message : String

/-- The `pr_commit_shas` union built by the loop in `filter_orphan_commits`
(`multiple_repos_release_notes.py` lines 56-59).  Python's `set.update` is
modelled by list append; only membership is consumed downstream. -/
def pr_commit_shas (pr_list : List PullReq) : List String :=
  pr_list.foldl (fun acc pr => acc ++ pr.commit_shas) []

/-- `filter_orphan_commits(commit_objs, pr_list)`
(`multiple_repos_release_notes.py` lines 56-60): the list comprehension
keeping exactly the commits whose SHA is not in `pr_commit_shas`. -/
def filter_orphan_commits (commit_objs : List CommitObj) (pr_list : List PullReq) : List CommitObj :=
  commit_objs.filter (fun c => !((pr_commit_shas pr_list).contains c.sha))

/-- `prep_llm_input(pr_list, orphan_commits)` from
`multiple_repos_release_notes.py` lines 62-72: one `PR:` line per
change-request (title, then an em-dash-joined description when the body is
non-empty), followed by one `Commit:` line per orphan commit (first line of
the message, stripped). -/
def prep_llm_input (pr_list : List PullReq) (orphan_commits : List CommitObj) : List String :=
  (pr_list.map (fun pr =>
    "PR: " ++ (if pr.body ≠ "" then pr.title ++ " — " ++ pr.body else pr.title))) ++
  (orphan_commits.map (fun commit =>
    "Commit: " ++ pyStrip (firstLine commit.message)))

/-- `prep_llm_input(pr_list, orphan_commits)` from
`from_prs_release_notes.py` lines 58-68.  Identical to the multi-repo
variant except for the separator string: that file literally contains the
three characters `â€”` (a mojibake re-encoding of the em dash) instead of
`—`. -/
def prep_llm_input_prs (pr_list : List PullReq) (orphan_commits : List CommitObj) : List String :=
  (pr_list.map (fun pr =>
    "PR: " ++ (if pr.body ≠ "" then pr.title ++ " â€” " ++ pr.body else pr.title))) ++
  (orphan_commits.map (fun commit =>
    "Commit: " ++ pyStrip (firstLine commit.message)))

/-- The fixed sentinel returned by `get_release_notes` on empty input
(`multiple_repos_release_notes.py` line 76). -/
def sentinel_message : String := "No changes found in the selected period."

/-- The prompt text built by `get_release_notes`
(`multiple_repos_release_notes.py` lines 77-82). -/
def release_prompt (items : List String) : String :=
  "You are a professional technical writer. Given these PRs and commits, generate a concise, categorized release note in Markdown for end-users. Group under Features, Fixes, and Improvements. Prefer the PR description if available. Omit trivial/internal changes.\n\nChanges:\n"
  ++ String.intercalate "\n" (items.map (fun item => "- " ++ item))

/-- `get_release_notes(items)` (`multiple_repos_release_notes.py` lines
74-91) with the external OpenAI round-trip injected as `llm` (the adapter of
spec section 4.4): empty input short-circuits to the sentinel, otherwise the
model's reply to the built prompt is returned stripped. -/
def get_release_notes (llm : String → String) (items : List String) : String :=
  if items = [] then sentinel_message
  else pyStrip (llm (release_prompt items))

/-- Recursion core of `chunk_list`: the Python loop
`for i in range(0, len(lst), chunk_size): yield lst[i:i + chunk_size]`
expressed structurally.  Each iteration emits the slice `lst[0:n]` and
recurses on `lst[n:]`; since every step consumes at least one element when
`n >= 1`, `lst.length` iterations of fuel always suffice. -/
def chunk_go (n : Nat) : Nat → List α → List (List α)
  | 0, _ => []
  | _ + 1, [] => []
  | fuel + 1, x :: xs => ((x :: xs).take n) :: chunk_go n fuel ((x :: xs).drop n)

/-- `chunk_list(lst, chunk_size)` (`multiple_repos_release_notes.py` lines
93-95).  Python raises `ValueError` on step `0`; the spec declares
`chunk_size <= 0` a caller contract violation, so the embedding returns `[]`
there and every claim assumes `chunk_size >= 1`. -/
def chunk_list (lst : List α) (chunk_size : Nat) : List (List α) :=
  if chunk_size = 0 then [] else chunk_go chunk_size lst.length lst

/-- Default `chunk_size` of `summarize_in_chunks`. -/
def default_chunk_size : Nat := 30

/-- The fixed instruction preamble of the meta-merge prompt
(`multiple_repos_release_notes.py` lines 105-107). -/
def final_preamble : String :=
  "Here are several summaries of code changes for a release. Write a single, clear, categorized release note in Markdown for end-users, grouping by Features, Fixes, Improvements.\n\n"

/-- The labelled batch blocks of the meta-merge prompt: Python's
`(f"Batch {i+1}:\n{summary}" for i, summary in enumerate(summaries))`. -/
def batch_lines (summaries : List String) : List String :=
  summaries.enum.map (fun p => "Batch " ++ toString (p.1 + 1) ++ ":\n" ++ p.2)

/-- The `final_prompt` string built in the multi-chunk branch of
`summarize_in_chunks` (`multiple_repos_release_notes.py` lines 105-109). -/
def final_prompt (summaries : List String) : String :=
  final_preamble ++ String.intercalate "\n\n" (batch_lines summaries)

/-- `summarize_in_chunks(items, get_release_notes_func, chunk_size)`
(`multiple_repos_release_notes.py` lines 97-110): summarize every chunk,
return the single summary verbatim when exactly one chunk was produced,
otherwise call `f` once more on the singleton meta-prompt list. -/
def summarize_in_chunks (items : List String) (f : List String → String) (chunk_size : Nat) : String :=
  let summaries := (chunk_list items chunk_size).map f
  if summaries.length = 1 then summaries.headD ""
  else f [final_prompt summaries]

/-- The sequence of argument lists `summarize_in_chunks` passes to
`get_release_notes_func`, in call order: one call per chunk (in chunk
order), then, unless exactly one summary was collected, one final call on
the singleton meta-prompt list.  This instruments the same control flow as
`summarize_in_chunks`. -/
def summarize_calls (items : List String) (f : List String → String) (chunk_size : Nat) : List (List String) :=
  let chunks := chunk_list items chunk_size
  if (chunks.map f).length = 1 then chunks
  else chunks ++ [[final_prompt (chunks.map f)]]

/-- `need_chunking(items, max_items, max_chars)`
(`multiple_repos_release_notes.py` lines 112-118). -/
def need_chunking (items : List String) (max_items : Nat) (max_chars : Nat) : Bool :=
  if items.length > max_items then true
  else if (items.map String.length).sum > max_chars then true
  else false

/-- Default `max_items` of `need_chunking`. -/
def default_max_items : Nat := 40

/-- Default `max_chars` of `need_chunking`. -/
def default_max_chars : Nat := 10000

/-- `need_chunking` applied with its Python default arguments. -/
def need_chunking_default (items : List String) : Bool :=
  need_chunking items default_max_items default_max_chars

/-- The message-collecting loop of `get_commits` in the commit-only variants
(`from_commits_release_notes.py` lines 27-33, and identically in
`from_commits_with_GeminiApiKey.py` and `from_commits_with_Ollama.py`),
applied to the fetched commits' raw message texts: keep a commit's stripped
message only when it is non-empty and does not start, lower-cased, with
"merge". -/
def get_commits_messages : List String → List String
  | [] => []
  | m :: rest =>
    let msg := pyStrip m
    if msg ≠ "" ∧ ¬(pyStartsWith (pyLower msg) "merge") then msg :: get_commits_messages rest
    else get_commits_messages rest

theorem mem_foldl_union (pr_list : List PullReq) (acc : List String) (s : String) :
    s ∈ pr_list.foldl (fun acc pr => acc ++ pr.commit_shas) acc ↔
      s ∈ acc ∨ ∃ pr ∈ pr_list, s ∈ pr.commit_shas := by
  induction pr_list generalizing acc with
  | nil => simp
  | cons p ps ih =>
    simp only [List.foldl_cons, ih, List.mem_append, List.mem_cons]
    constructor
    · rintro (⟨h | h⟩ | ⟨pr, hpr, hs⟩)
      · exact Or.inl h
      · exact Or.inr ⟨p, Or.inl rfl, h⟩
      · exact Or.inr ⟨pr, Or.inr hpr, hs⟩
    · rintro (h | ⟨pr, h | hpr, hs⟩)
      · exact Or.inl (Or.inl h)
      · exact Or.inl (Or.inr (h ▸ hs))
      · exact Or.inr ⟨pr, hpr, hs⟩

theorem mem_pr_commit_shas (pr_list : List PullReq) (s : String) :
    s ∈ pr_commit_shas pr_list ↔ ∃ pr ∈ pr_list, s ∈ pr.commit_shas := by
  simpa using mem_foldl_union pr_list [] s

/-- C4: `filter_orphan_commits C P` keeps no commit whose SHA lies in the
union of the change-requests' subsumed-SHA sets, keeps every commit whose
SHA does not, preserves the original relative order of `C` (it is a sublist
of `C`), and returns `C` unchanged when `P` is empty. -/
theorem filter_orphan_commits_spec (C : List CommitObj) (P : List PullReq) :
    (∀ c ∈ filter_orphan_commits C P, ¬ ∃ pr ∈ P, c.sha ∈ pr.commit_shas) ∧
    (∀ c ∈ C, (¬ ∃ pr ∈ P, c.sha ∈ pr.commit_shas) → c ∈ filter_orphan_commits C P) ∧
    List.Sublist (filter_orphan_commits C P) C ∧
    filter_orphan_commits C [] = C := by
  refine ⟨?_, ?_, ?_, ?_⟩
  · intro c hc
    simp only [filter_orphan_commits, List.mem_filter, Bool.not_eq_eq_eq_not, Bool.not_true,
      List.contains, List.elem_eq_mem, decide_eq_false_iff_not, ← mem_pr_commit_shas] at hc ⊢
    exact hc.2
  · intro c hc hnot
    rw [← mem_pr_commit_shas] at hnot
    simp only [filter_orphan_commits, List.mem_filter, Bool.not_eq_eq_eq_not, Bool.not_true,
      List.contains, List.elem_eq_mem, decide_eq_false_iff_not]
    exact ⟨hc, hnot⟩
  · exact List.filter_sublist C
  · simp [filter_orphan_commits, pr_commit_shas]

/-- C9: the deduplicator is idempotent: filtering an already filtered commit
list against the same change-request list changes nothing. -/
theorem filter_orphan_commits_idem (C : List CommitObj) (P : List PullReq) :
    filter_orphan_commits (filter_orphan_commits C P) P = filter_orphan_commits C P := by
  simp [filter_orphan_commits, List.filter_filter]

/-- C6: `need_chunking` is true exactly when the item count exceeds
`max_items` or the summed character length exceeds `max_chars`; it is false
at or below both thresholds, in particular at the exact boundary, and the
Python defaults are `40` and `10000`. -/
theorem need_chunking_spec (items : List String) (mi mc : Nat) :
    (need_chunking items mi mc = true ↔
      mi < items.length ∨ mc < (items.map String.length).sum) ∧
    (need_chunking items mi mc = false ↔
      items.length ≤ mi ∧ (items.map String.length).sum ≤ mc) ∧
    need_chunking items items.length ((items.map String.length).sum) = false ∧
    need_chunking_default items = need_chunking items 40 10000 := by
  refine ⟨?_, ?_, ?_, rfl⟩
  · unfold need_chunking
    split_ifs with h1 h2 <;> simp <;> omega
  · unfold need_chunking
    split_ifs with h1 h2 <;> simp <;> omega
  · unfold need_chunking
    split_ifs with h1 h2 <;> first | rfl | omega

theorem chunk_go_nil (n fuel : Nat) : chunk_go (α := α) n fuel [] = [] := by
  cases fuel <;> rfl

theorem chunk_go_ne_nil {n : Nat} (fuel : Nat) (x : α) (xs : List α)
    (h : (x :: xs).length ≤ fuel) : chunk_go n fuel (x :: xs) ≠ [] := by
  cases fuel with
  | zero => simp at h
  | succ fuel => simp [chunk_go]

theorem chunk_go_flatten {n : Nat} (hn : 1 ≤ n) :
    ∀ (fuel : Nat) (L : List α), L.length ≤ fuel → (chunk_go n fuel L).flatten = L := by
  intro fuel
  induction fuel with
  | zero =>
    intro L hL
    rw [List.eq_nil_of_length_eq_zero (Nat.le_zero.mp hL), chunk_go_nil]
    rfl
  | succ fuel ih =>
    intro L hL
    match L with
    | [] => rw [chunk_go_nil]; rfl
    | x :: xs =>
      have hdrop : ((x :: xs).drop n).length ≤ fuel := by
        simp only [List.length_drop, List.length_cons]
        simp only [List.length_cons] at hL
        omega
      simp only [chunk_go, List.flatten_cons, ih _ hdrop, List.take_append_drop]

theorem chunk_list_single (items : List α) (n : Nat) (hne : items ≠ [])
    (hlen : items.length ≤ n) : chunk_list items n = [items] := by
  obtain ⟨x, xs, rfl⟩ := List.exists_cons_of_ne_nil hne
  have hn : n ≠ 0 := by
    simp only [List.length_cons] at hlen
    omega
  unfold chunk_list
  rw [if_neg hn]
  show chunk_go n (xs.length + 1) (x :: xs) = [x :: xs]
  simp only [chunk_go]
  rw [List.drop_eq_nil_of_le hlen, chunk_go_nil, List.take_of_length_le hlen]

theorem chunk_go_sizes {n : Nat} (hn : 1 ≤ n) :
    ∀ (fuel : Nat) (L : List α), L.length ≤ fuel →
      (∀ c ∈ (chunk_go n fuel L).dropLast, c.length = n) ∧
      (∀ c, (chunk_go n fuel L).getLast? = some c →
        c.length = if L.length % n = 0 then n else L.length % n) := by
  intro fuel
  induction fuel with
  | zero =>
    intro L hL
    rw [List.eq_nil_of_length_eq_zero (Nat.le_zero.mp hL), chunk_go_nil]
    exact ⟨by simp, by simp⟩
  | succ fuel ih =>
    intro L hL
    match L with
    | [] => rw [chunk_go_nil]; exact ⟨by simp, by simp⟩
    | x :: xs =>
      by_cases hsmall : (x :: xs).length ≤ n
      · have hdrop : (x :: xs).drop n = [] := List.drop_eq_nil_of_le hsmall
        have hone : chunk_go n (fuel + 1) (x :: xs) = [(x :: xs).take n] := by
          simp only [chunk_go, hdrop, chunk_go_nil]
        rw [hone, List.take_of_length_le hsmall]
        refine ⟨by simp, ?_⟩
        intro c hc
        simp only [List.getLast?_singleton, Option.some.injEq] at hc
        subst hc
        have hpos : 1 ≤ (x :: xs).length := by simp
        rcases Nat.lt_or_ge (x :: xs).length n with hlt | hge
        · rw [if_neg (by rw [Nat.mod_eq_of_lt hlt]; omega), Nat.mod_eq_of_lt hlt]
        · have heq : (x :: xs).length = n := Nat.le_antisymm hsmall hge
          rw [heq, if_pos (Nat.mod_self n)]
      · push_neg at hsmall
        have hdlen : ((x :: xs).drop n).length ≤ fuel := by
          simp only [List.length_drop, List.length_cons]
          simp only [List.length_cons] at hL
          omega
        have hne : (x :: xs).drop n ≠ [] := by
          intro h0
          have := congrArg List.length h0
          simp only [List.length_drop, List.length_nil] at this
          omega
        obtain ⟨y, ys, hys⟩ := List.exists_cons_of_ne_nil hne
        have hrest : chunk_go n fuel ((x :: xs).drop n) ≠ [] := by
          rw [hys]
          exact chunk_go_ne_nil fuel y ys (by rw [← hys]; exact hdlen)
        have ihd := ih ((x :: xs).drop n) hdlen
        have harith : (x :: xs).length % n = ((x :: xs).drop n).length % n := by
          simp only [List.length_drop]
          conv_lhs => rw [show (x :: xs).length = ((x :: xs).length - n) + n by omega]
          rw [Nat.add_mod_right]
        constructor
        · intro c hc
          simp only [chunk_go] at hc
          rw [List.dropLast_cons_of_ne_nil hrest] at hc
          rcases List.mem_cons.mp hc with rfl | hc
          · simp only [List.length_take, List.length_cons]
            simp only [List.length_cons] at hsmall
            omega
          · exact ihd.1 c hc
        · intro c hc
          simp only [chunk_go] at hc
          obtain ⟨r, rs, hrs⟩ := List.exists_cons_of_ne_nil hrest
          rw [hrs, List.getLast?_cons_cons, ← hrs] at hc
          rw [harith]
          exact ihd.2 c hc

/-- C5: for every chunk size of at least one, concatenating the chunks of
`chunk_list` in order reproduces the input list exactly. -/
theorem chunk_list_flatten (L : List α) (n : Nat) (hn : 1 ≤ n) :
    (chunk_list L n).flatten = L := by
  unfold chunk_list
  rw [if_neg (by omega)]
  exact chunk_go_flatten hn L.length L (Nat.le_refl _)

/-- Witness for C5: concrete chunking of a five-element list with size 2. -/
theorem chunk_list_flatten_witness :
    1 ≤ 2 ∧ (chunk_list ["a", "b", "c", "d", "e"] 2).flatten = ["a", "b", "c", "d", "e"] :=
  ⟨by decide, chunk_list_flatten ["a", "b", "c", "d", "e"] 2 (by decide)⟩

/-- C7: with chunk size `n >= 1`, every chunk except possibly the last has
length exactly `n`, and the last chunk has length `L.length % n`, or `n`
when `n` divides `L.length` evenly. -/
theorem chunk_list_sizes (L : List α) (n : Nat) (hn : 1 ≤ n) :
    (∀ c ∈ (chunk_list L n).dropLast, c.length = n) ∧
    (∀ c, (chunk_list L n).getLast? = some c →
      c.length = if L.length % n = 0 then n else L.length % n) := by
  unfold chunk_list
  rw [if_neg (by omega)]
  exact chunk_go_sizes hn L.length L (Nat.le_refl _)

/-- Witness for C7: a five-element list chunked with size 2 gives chunk
lengths 2, 2, 1. -/
theorem chunk_list_sizes_witness :
    1 ≤ 2 ∧
    ((∀ c ∈ (chunk_list ["a", "b", "c", "d", "e"] 2).dropLast, c.length = 2) ∧
     (∀ c, (chunk_list ["a", "b", "c", "d", "e"] 2).getLast? = some c →
       c.length = if (["a", "b", "c", "d", "e"] : List String).length % 2 = 0 then 2
         else (["a", "b", "c", "d", "e"] : List String).length % 2)) :=
  ⟨by decide, chunk_list_sizes ["a", "b", "c", "d", "e"] 2 (by decide)⟩

theorem chunk_list_nil (n : Nat) : chunk_list ([] : List α) n = [] := by
  unfold chunk_list
  split
  · rfl
  · exact chunk_go_nil _ _

/-- C1 (amended): `summarize_in_chunks` has no empty-input short-circuit.
On `[]` it produces zero chunks, falls into the multi-chunk branch, calls
`f` exactly once — on the singleton list holding the meta prompt with zero
batch summaries — and returns that call's result.  The fixed sentinel is
instead returned by `get_release_notes` itself on empty input, without
invoking the LLM. -/
theorem aggregate_empty_behavior (f : List String → String) (llm : String → String) (n : Nat) :
    summarize_calls [] f n = [[final_prompt []]] ∧
    summarize_in_chunks [] f n = f [final_prompt []] ∧
    get_release_notes llm [] = sentinel_message := by
  refine ⟨?_, ?_, rfl⟩
  · simp [summarize_calls, chunk_list_nil]
  · simp [summarize_in_chunks, chunk_list_nil]

/-- C1 as stated is false on the code: at `items = []` with a concrete `f`,
`summarize_in_chunks` neither returns the sentinel nor leaves `f`
uninvoked. -/
theorem aggregate_empty_cex :
    summarize_in_chunks [] (fun l => String.intercalate ", " l) 30 ≠ sentinel_message ∧
    summarize_calls [] (fun l => String.intercalate ", " l) 30 ≠ [] := by
  decide

/-- C2 (amended): for a NONEMPTY item list fitting in one chunk
(`items.length ≤ chunk_size`), the aggregator calls `f` exactly once, with
all of `items`, and returns its result unmodified. -/
theorem summarize_single_chunk (items : List String) (f : List String → String) (n : Nat)
    (hne : items ≠ []) (hlen : items.length ≤ n) :
    summarize_calls items f n = [items] ∧ summarize_in_chunks items f n = f items := by
  have hc := chunk_list_single items n hne hlen
  constructor
  · simp [summarize_calls, hc]
  · simp [summarize_in_chunks, hc]

/-- Witness for the amended C2 at a concrete two-item input. -/
theorem summarize_single_chunk_witness :
    (["alpha", "beta"] : List String) ≠ [] ∧
    (["alpha", "beta"] : List String).length ≤ 30 ∧
    (summarize_calls ["alpha", "beta"] (fun l => String.intercalate ", " l) 30
        = [["alpha", "beta"]] ∧
      summarize_in_chunks ["alpha", "beta"] (fun l => String.intercalate ", " l) 30
        = (fun l => String.intercalate ", " l) ["alpha", "beta"]) :=
  ⟨by decide, by decide,
    summarize_single_chunk ["alpha", "beta"] (fun l => String.intercalate ", " l) 30
      (by decide) (by decide)⟩

/-- C2 as stated is false on the code at `items = []` (which satisfies
`len(items) ≤ chunk_size`): zero chunks are produced, so the meta branch
runs and `f` is called on the singleton meta-prompt list, not on `items`,
and the result is not `f items`. -/
theorem summarize_single_chunk_cex :
    (([] : List String)).length ≤ 30 ∧
    ¬ (summarize_calls [] (fun l => String.intercalate ", " l) 30 = [([] : List String)] ∧
       summarize_in_chunks [] (fun l => String.intercalate ", " l) 30
         = (fun l => String.intercalate ", " l) []) := by
  decide

/-- C3: when the items split into `N > 1` chunks, the aggregator calls `f`
exactly `N + 1` times — once per chunk in chunk order, then once on a
single-element meta list — the meta prompt carries one labelled block per
per-chunk summary, labelled `Batch i` by ascending 1-based chunk index, and
the meta call's return value is the final result. -/
theorem summarize_multi_chunk (items : List String) (f : List String → String) (n : Nat)
    (hN : 1 < (chunk_list items n).length) :
    summarize_calls items f n
      = chunk_list items n ++ [[final_prompt ((chunk_list items n).map f)]] ∧
    (summarize_calls items f n).length = (chunk_list items n).length + 1 ∧
    summarize_in_chunks items f n = f [final_prompt ((chunk_list items n).map f)] ∧
    (batch_lines ((chunk_list items n).map f)).length = (chunk_list items n).length ∧
    (∀ i, i < (chunk_list items n).length →
      (batch_lines ((chunk_list items n).map f))[i]?
        = some ("Batch " ++ toString (i + 1) ++ ":\n"
            ++ ((chunk_list items n).map f).getD i "")) := by
  have hlen : ((chunk_list items n).map f).length ≠ 1 := by
    rw [List.length_map]
    omega
  refine ⟨?_, ?_, ?_, ?_, ?_⟩
  · unfold summarize_calls
    rw [if_neg hlen]
  · unfold summarize_calls
    rw [if_neg hlen]
    simp
  · unfold summarize_in_chunks
    rw [if_neg hlen]
  · simp [batch_lines]
  · intro i hi
    have hi' : i < ((chunk_list items n).map f).length := by
      rwa [List.length_map]
    simp only [batch_lines, List.getElem?_map, List.getElem?_enum,
      List.getElem?_eq_getElem hi', Option.map_some', List.getD_eq_getElem?_getD,
      Option.getD_some]

/-- Witness for C3: three items with chunk size 2 give two chunks and one
meta call. -/
theorem summarize_multi_chunk_witness :
    1 < (chunk_list ["a", "b", "c"] 2).length ∧
    (summarize_calls ["a", "b", "c"] (fun l => String.intercalate "|" l) 2
      = chunk_list ["a", "b", "c"] 2
        ++ [[final_prompt ((chunk_list ["a", "b", "c"] 2).map
              (fun l => String.intercalate "|" l))]] ∧
    (summarize_calls ["a", "b", "c"] (fun l => String.intercalate "|" l) 2).length
      = (chunk_list ["a", "b", "c"] 2).length + 1 ∧
    summarize_in_chunks ["a", "b", "c"] (fun l => String.intercalate "|" l) 2
      = (fun l => String.intercalate "|" l)
          [final_prompt ((chunk_list ["a", "b", "c"] 2).map
            (fun l => String.intercalate "|" l))] ∧
    (batch_lines ((chunk_list ["a", "b", "c"] 2).map
        (fun l => String.intercalate "|" l))).length
      = (chunk_list ["a", "b", "c"] 2).length ∧
    (∀ i, i < (chunk_list ["a", "b", "c"] 2).length →
      (batch_lines ((chunk_list ["a", "b", "c"] 2).map
          (fun l => String.intercalate "|" l)))[i]?
        = some ("Batch " ++ toString (i + 1) ++ ":\n"
            ++ ((chunk_list ["a", "b", "c"] 2).map
                (fun l => String.intercalate "|" l)).getD i ""))) :=
  ⟨by decide,
    summarize_multi_chunk ["a", "b", "c"] (fun l => String.intercalate "|" l) 2 (by decide)⟩

/-- C8: the normalizer emits one line per entity (PR lines before commit
lines, each group in fetch order), but the two variants diverge on the PR
description separator: `multiple_repos_release_notes.py` joins title and
description with the em dash `—` as the claim states, while
`from_prs_release_notes.py` literally contains the mojibake characters
`â€”` there, so for any PR with a non-empty description it renders a
different line.  Evaluated at a concrete PR with non-empty description. -/
theorem prep_llm_input_dash_divergence :
    (∀ (P : List PullReq) (C : List CommitObj),
      (prep_llm_input P C).length = P.length + C.length ∧
      (prep_llm_input_prs P C).length = P.length + C.length) ∧
    prep_llm_input [⟨7, "Add config", "adds options", "alice", []⟩]
        [⟨"abc123", "fix: typo\ndetails"⟩]
      = ["PR: Add config — adds options", "Commit: fix: typo"] ∧
    prep_llm_input_prs [⟨7, "Add config", "adds options", "alice", []⟩]
        [⟨"abc123", "fix: typo\ndetails"⟩]
      = ["PR: Add config â€” adds options", "Commit: fix: typo"] ∧
    prep_llm_input_prs [⟨7, "Add config", "adds options", "alice", []⟩] []
      ≠ prep_llm_input [⟨7, "Add config", "adds options", "alice", []⟩] [] ∧
    prep_llm_input [⟨8, "Tidy", "", "bob", []⟩] [] = ["PR: Tidy"] := by
  refine ⟨?_, by decide, by decide, by decide, by decide⟩
  intro P C
  constructor <;> simp [prep_llm_input, prep_llm_input_prs]

/-- C10: the message-collecting loop of `get_commits` in the commit-only
variants equals: strip every fetched message, then keep, in fetch order,
exactly those that are non-empty and do not start (lower-cased) with
"merge"; merge commits and whitespace-only messages are silently dropped
before normalization. -/
theorem get_commits_messages_spec (raw : List String) :
    get_commits_messages raw
      = (raw.map pyStrip).filter
          (fun m => decide (m ≠ "" ∧ ¬(pyStartsWith (pyLower m) "merge"))) ∧
    (∀ m ∈ get_commits_messages raw, m ≠ "" ∧ ¬(pyStartsWith (pyLower m) "merge")) ∧
    get_commits_messages ["Merge pull request #1 from dev", "  fix: null deref  ", "   "]
      = ["fix: null deref"] := by
  have heq : ∀ (l : List String), get_commits_messages l
      = (l.map pyStrip).filter
          (fun m => decide (m ≠ "" ∧ ¬(pyStartsWith (pyLower m) "merge"))) := by
    intro l
    induction l with
    | nil => rfl
    | cons m rest ih =>
      simp only [get_commits_messages, List.map_cons, List.filter_cons]
      by_cases h : pyStrip m ≠ "" ∧ ¬(pyStartsWith (pyLower (pyStrip m)) "merge")
      · rw [if_pos h, decide_eq_true h, if_pos rfl, ih]
      · rw [if_neg h, decide_eq_false h, ih]
        simp
  refine ⟨heq raw, ?_, by decide⟩
  intro m hm
  rw [heq raw] at hm
  have := (List.mem_filter.mp hm).2
  exact of_decide_eq_true this

end ReleaseNotes
